import Mathlib

/-!
Verification of the enum-to-ts line-pattern extraction and enum-text
synthesis pipeline (`src/includes/parser.ts`, static class `Parser`).

The TypeScript code is shallowly embedded here:
* `string` becomes `String` (character-level; all inputs of interest are BMP
  text, so JS UTF-16 code-unit indexing agrees with character indexing);
* a possibly-`undefined` field becomes `Option`;
* the five built-in regular expressions are embedded as explicit executable
  scanners that implement exactly the backtracking behaviour of the JS regex
  engine on those patterns (leftmost search, greedy/lazy quantifiers,
  the negative lookbehind `(?<!\\)` and the quote backreference);
* the `Readable`-stream iteration inside `getEnums` /
  `getEnumsWithDescription` is plain sequential iteration over the split
  lines, so it is embedded as a `List.filterMap` followed by the same
  rendering arithmetic;
* `os.EOL` is the platform line separator; this development fixes it to
  `"\n"` (the POSIX value); no theorem below depends on its spelling.
-/

deriving instance DecidableEq for Except

namespace Parser

/-- MatchResult of one line (interface `ParseResult` in `src/types`):
`name` and `value` are the extracted strings, `comment` is the optional
free-text comment (`undefined` in JS becomes `none`). -/
structure ParseResult where
  name : String
  value : String
  comment : Option String := none
deriving DecidableEq

/-- ParseInfo (interface in `src/types/ParseInfo.ts`): per-job configuration. -/
structure ParseInfo where
  srcFileName : String
  srcDirectory : String
  enumName : String
  descriptionEnumName : Option String := none
  comment : Option String := none
  parseFunc : String → Option ParseResult

/-- `os.EOL`, fixed to the POSIX value. -/
def EOL : String := "\n"

/-- Character class `[A-Z0-9_]` used by all five built-in regexes. -/
def isIdentChar (c : Char) : Bool :=
  ('A' ≤ c && c ≤ 'Z') || ('0' ≤ c && c ≤ '9') || c == '_'

/-- Character class `\s` of the JS regex engine (ECMA-262 WhiteSpace plus
LineTerminator: ASCII whitespace, NBSP, the Unicode space separators,
LS, PS and the BOM). -/
def isJsSpace (c : Char) : Bool :=
  decide (c = ' ' ∨ c = '\t' ∨ c = '\n' ∨ c = '\x0B' ∨ c = '\x0C' ∨ c = '\r' ∨
    c = ' ' ∨ c = ' ' ∨ c = ' ' ∨ c = ' ' ∨ c = ' ' ∨
    c = ' ' ∨ c = ' ' ∨ c = ' ' ∨ c = ' ' ∨ c = ' ' ∨
    c = ' ' ∨ c = ' ' ∨ c = ' ' ∨ c = ' ' ∨ c = ' ' ∨
    c = ' ' ∨ c = ' ' ∨ c = '　' ∨ c = '﻿')

/-- Characters matched by `.` in a JS regex without the `s` flag:
everything except the four LineTerminator characters. -/
def notLineTerm (c : Char) : Bool :=
  decide (c ≠ '\n' ∧ c ≠ '\r' ∧ c ≠ ' ' ∧ c ≠ ' ')

/-- Helper for `splitChars`: push a character onto the first line of an
already-split tail (the tail is never empty, but totality needs a case). -/
def consHead (c : Char) : List (List Char) → List (List Char)
  | [] => [[c]]
  | l :: ls => (c :: l) :: ls

/-- Character-level behaviour of `content.split(/\r\n|\r|\n/)`: scan left to
right; at each position the alternation tries `\r\n` first, then `\r`,
then `\n`. Splitting the empty text yields one empty line, as in JS. -/
def splitChars : List Char → List (List Char)
  | [] => [[]]
  | '\r' :: '\n' :: rest => [] :: splitChars rest
  | '\r' :: rest => [] :: splitChars rest
  | '\n' :: rest => [] :: splitChars rest
  | c :: rest => consHead c (splitChars rest)

/-- `Parser.splitByEOL(content, ignoreEmptyLines)`:
`(content || '').split(/\r\n|\r|\n/)`, then, when `ignoreEmptyLines`
(default `true` in the source), `.filter(line => line !== '')`.
A `null`/`undefined` content is `none`. -/
def splitByEOL (content : Option String) (ignoreEmptyLines : Bool) : List String :=
  let arr := (splitChars (content.getD "").data).map String.mk
  if ignoreEmptyLines then arr.filter (fun line => line != "") else arr

/-- Unanchored regex search: `line.match(re)` tries a match attempt at every
start position from the left and returns the first success. -/
def searchMatch {α : Type} (f : List Char → Option α) : List Char → Option α
  | [] => f []
  | c :: rest =>
    match f (c :: rest) with
    | some r => some r
    | none => searchMatch f rest

/-- Match attempt of the anchored `REG_EXP_NAME = /^\s*?([A-Z0-9_]+)[;,]?$/`
on a whole line.  The lazy `\s*?` and the greedy `[A-Z0-9_]+` are
deterministic here because the three character classes involved are
pairwise disjoint and the pattern is anchored on both sides. -/
def matchName (cs : List Char) : Option String :=
  let afterWs := cs.dropWhile isJsSpace
  let id := afterWs.takeWhile isIdentChar
  let rest := afterWs.dropWhile isIdentChar
  if id ≠ [] ∧ (rest = [] ∨ rest = [';'] ∨ rest = [',']) then some (String.mk id) else none

/-- `Parser.parseName`: match `REG_EXP_NAME`, map group 1 to both `name`
and `value` (no comment field). -/
def parseName (line : String) : Option ParseResult :=
  (matchName line.data).map (fun n => { name := n, value := n, comment := none })

/-- Match attempt of `REG_EXP_NAME_VALUE = /([A-Z0-9_]+)\s*\([^)]*\)/` at one
start position: identifier, optional whitespace, `(`, any non-`)` run, `)`.
Only capture group 1 (the name) is used by the caller. -/
def tryNameValue (cs : List Char) : Option String :=
  let id := cs.takeWhile isIdentChar
  if id = [] then none
  else
    match (cs.dropWhile isIdentChar).dropWhile isJsSpace with
    | '(' :: rest =>
      if (rest.dropWhile (fun c => c != ')')) = [] then none else some (String.mk id)
    | _ => none

/-- `Parser.parseNameValue`: match `REG_EXP_NAME_VALUE`; despite the name,
the source maps group 1 to both `name` and `value` and drops the argument
text (no comment field). -/
def parseNameValue (line : String) : Option ParseResult :=
  (searchMatch tryNameValue line.data).map (fun n => { name := n, value := n, comment := none })

/-- Lazy quoted-text scan for `(['"])(.*?)(?<!\\)\2` (nothing follows the
backreference): find the earliest occurrence of the opening quote `q` that
is not immediately preceded by a literal backslash; `prev` is the character
before the current position (initially the opening quote itself).  Content
characters must be matchable by `.` (no line terminators). -/
def lazyClose (q : Char) (prev : Char) : List Char → Option (List Char)
  | [] => none
  | c :: rest =>
    if c = q ∧ prev ≠ '\\' then some []
    else if notLineTerm c then (lazyClose q c rest).map (fun cs => c :: cs)
    else none

/-- Match attempt of
`REG_EXP_NAME_COMMENT = /([A-Z0-9_]+)\s*\((['"])(.*?)(?<!\\)\2/` at one
start position; returns (group 1, group 3). -/
def tryNameComment (cs : List Char) : Option (String × String) :=
  let id := cs.takeWhile isIdentChar
  if id = [] then none
  else
    match (cs.dropWhile isIdentChar).dropWhile isJsSpace with
    | '(' :: q :: rest =>
      if q = '"' ∨ q = '\'' then
        (lazyClose q q rest).map (fun content => (String.mk id, String.mk content))
      else none
    | _ => none

/-- `Parser.parseNameComment`: match `REG_EXP_NAME_COMMENT`; group 1 becomes
both `name` and `value`, group 3 becomes `comment` (always present on a
match, possibly the empty string). -/
def parseNameComment (line : String) : Option ParseResult :=
  (searchMatch tryNameComment line.data).map
    (fun p => { name := p.1, value := p.1, comment := some p.2 })

/-- Tail `\s*(['"])(.*?)(?<!\\)\k` after the comma of
`REG_EXP_NAME_VALUE_COMMENT` (greedy `\s*` is deterministic because the
quote characters are not whitespace). -/
def matchCommaTail (cs : List Char) : Option (List Char) :=
  match cs.dropWhile isJsSpace with
  | [] => none
  | q :: rest => if q = '"' ∨ q = '\'' then lazyClose q q rest else none

/-- Backtracking of the greedy `(.+),` of `REG_EXP_NAME_VALUE_COMMENT`:
the value text extends as far right as possible (extension is tried before
splitting at the current comma), must be non-empty (`hasValue`) and may not
contain a line terminator. -/
def valueCommentAux : Bool → List Char → Option (List Char)
  | _, [] => none
  | hasValue, c :: rest =>
    (if notLineTerm c then valueCommentAux true rest else none) <|>
    (if c = ',' ∧ hasValue then matchCommaTail rest else none)

/-- Match attempt of
`REG_EXP_NAME_VALUE_COMMENT = /([A-Z0-9_]+)\s*\((.+),\s*(['"])(.*?)(?<!\\)\3/`
at one start position; returns (group 1, group 4). -/
def tryNameValueComment (cs : List Char) : Option (String × String) :=
  let id := cs.takeWhile isIdentChar
  if id = [] then none
  else
    match (cs.dropWhile isIdentChar).dropWhile isJsSpace with
    | '(' :: rest =>
      (valueCommentAux false rest).map (fun comment => (String.mk id, String.mk comment))
    | _ => none

/-- `Parser.parseNameValueComment`: match `REG_EXP_NAME_VALUE_COMMENT`;
group 1 becomes both `name` and `value`; the spread
`...(regArr[4] && {comment: regArr[4]})` adds `comment` only when the
captured text is truthy, i.e. non-empty. -/
def parseNameValueComment (line : String) : Option ParseResult :=
  (searchMatch tryNameValueComment line.data).map
    (fun p => { name := p.1, value := p.1, comment := if p.2 = "" then none else some p.2 })

/-- Tail check `\s*(.+)` (used after `COMMENT",` in
`REG_EXP_NAME_COMMENT_VALUE`): some whitespace prefix followed by at least
one character matchable by `.`; `\s` also matches the line terminators, so
a terminator can be skipped by `\s*` but cannot be the `(.+)` character. -/
def wsThenAny : List Char → Bool
  | [] => false
  | c :: rest => notLineTerm c || (isJsSpace c && wsThenAny rest)

/-- Literal `,` followed by `\s*(.+)`. -/
def commaThenValue : List Char → Bool
  | ',' :: rest => wsThenAny rest
  | _ => false

/-- Lazy quoted-text scan for `(['"])(.*?)(?<!\\)\2,\s*(.+)`: like
`lazyClose`, but the pattern continues after the backreference, so the lazy
group backtracks to a later closing quote whenever the `,\s*(.+)` tail
fails at the earlier one. -/
def lazyCloseThenRest (q : Char) (prev : Char) : List Char → Option (List Char)
  | [] => none
  | c :: rest =>
    (if c = q ∧ prev ≠ '\\' ∧ commaThenValue rest = true then some [] else none) <|>
    (if notLineTerm c then (lazyCloseThenRest q c rest).map (fun cs => c :: cs) else none)

/-- Match attempt of
`REG_EXP_NAME_COMMENT_VALUE = /([A-Z0-9_]+)\s*\((['"])(.*?)(?<!\\)\2,\s*(.+)/`
at one start position; returns (group 1, group 3). -/
def tryNameCommentValue (cs : List Char) : Option (String × String) :=
  let id := cs.takeWhile isIdentChar
  if id = [] then none
  else
    match (cs.dropWhile isIdentChar).dropWhile isJsSpace with
    | '(' :: q :: rest =>
      if q = '"' ∨ q = '\'' then
        (lazyCloseThenRest q q rest).map (fun content => (String.mk id, String.mk content))
      else none
    | _ => none

/-- `Parser.parseNameCommentValue`: match `REG_EXP_NAME_COMMENT_VALUE`;
group 1 becomes both `name` and `value`; the spread
`...(regArr[3] && {comment: regArr[3]})` adds `comment` only when the
captured comment text is truthy, i.e. non-empty. -/
def parseNameCommentValue (line : String) : Option ParseResult :=
  (searchMatch tryNameCommentValue line.data).map
    (fun p => { name := p.1, value := p.1, comment := if p.2 = "" then none else some p.2 })

/-- JS truthiness of the stashed `res.comment` (`undefined` and the empty
string are falsy), as tested by `if (res.comment)` and `v[1] ? ... : ''`. -/
def truthyComment : Option String → Bool
  | none => false
  | some c => c != ""

/-- JS template-literal interpolation of a possibly-`undefined` string:
`` `${x}` `` renders `undefined` as the literal text `undefined`. -/
def jsTemplate : Option String → String
  | none => "undefined"
  | some c => c

/-- Alignment column `Math.ceil(maxLen / 4 + 1) * 4` of the source
(`// +1 to extra spaces`), on natural numbers. -/
def alignColumn (maxLen : Nat) : Nat :=
  ((maxLen + 3) / 4 + 1) * 4

/-- `(v[0] + spacesStr).slice(0, maxLen)` where `spacesStr` is `col`
spaces: append `col` spaces and keep the first `col` characters. -/
def padCrop (col : Nat) (s : String) : String :=
  String.mk ((s.data ++ List.replicate col ' ').take col)

/-- `Math.max(...lines.map(v => v[0].length))` over the member lines
(meaningful only for a non-empty list; JS yields `-Infinity` on an empty
one, which the callers below account for). -/
def maxLineLen (lines : List (String × Option String)) : Nat :=
  lines.foldl (fun m v => max m v.1.length) 0

/-- One rendered line of the aligned simple-mode body:
`(v[0] + spacesStr).slice(0, maxLen) + (v[1] ? `// comment` : '')`. -/
def renderLine (col : Nat) (v : String × Option String) : String :=
  padCrop col v.1 ++ (if truthyComment v.2 then "// " ++ jsTemplate v.2 else "")

/-- The `lines` array built by the `data` handler of `Parser.getEnums`: for
each line of the split content that the strategy matches, the pair of the
rendered member text `    name = 'value',` and the raw comment field. -/
def enumLines (fileContent : String) (parseFunc : String → Option ParseResult) :
    List (String × Option String) :=
  ((splitByEOL (some fileContent) true).filterMap parseFunc).map
    (fun res => ("    " ++ res.name ++ " = '" ++ res.value ++ "',", res.comment))

/-- `Parser.getEnums(fileContent, parseFunc)`: the stream iteration collects
`enumLines`; on `close`, if any matched record had a truthy comment, all
member lines are padded to `alignColumn` of the longest line and truthy
comments are appended as `// comment`; otherwise the member lines are
joined unaligned. -/
def getEnums (fileContent : String) (parseFunc : String → Option ParseResult) : String :=
  if (enumLines fileContent parseFunc).any (fun v => truthyComment v.2) then
    String.intercalate EOL ((enumLines fileContent parseFunc).map
      (renderLine (alignColumn (maxLineLen (enumLines fileContent parseFunc)))))
  else
    String.intercalate EOL ((enumLines fileContent parseFunc).map (fun v => v.1))

/-- The matched records of the file content, in input order (shared by both
synthesizers: each split line is offered to the strategy and non-matching
lines are skipped). -/
def matchedResults (fileContent : String) (parseFunc : String → Option ParseResult) :
    List ParseResult :=
  (splitByEOL (some fileContent) true).filterMap parseFunc

/-- The `lines` array of `Parser.getEnumsWithDescription`: the rendered
member text `    value = 'value',` (note: `value`, not `name`, on both
sides) paired with the raw comment field. -/
def primaryPairs (fileContent : String) (parseFunc : String → Option ParseResult) :
    List (String × Option String) :=
  (matchedResults fileContent parseFunc).map
    (fun res => ("    " ++ res.value ++ " = '" ++ res.value ++ "',", res.comment))

/-- The `descriptionLines` array of `Parser.getEnumsWithDescription`:
`    value = 'comment',` with the comment interpolated by a template
literal (so a missing comment renders as `undefined`). -/
def descLines (fileContent : String) (parseFunc : String → Option ParseResult) : List String :=
  (matchedResults fileContent parseFunc).map
    (fun res => "    " ++ res.value ++ " = '" ++ jsTemplate res.comment ++ "',")

/-- The aligned primary-enum lines of `Parser.getEnumsWithDescription`:
every line is padded and gets `// comment` appended unconditionally
(template-interpolating a missing comment as `undefined`). -/
def primaryRendered (fileContent : String) (parseFunc : String → Option ParseResult) :
    List String :=
  (primaryPairs fileContent parseFunc).map
    (fun v => padCrop (alignColumn (maxLineLen (primaryPairs fileContent parseFunc))) v.1
      ++ "// " ++ jsTemplate v.2)

/-- `Parser.getEnumsWithDescription(fileContent, parseFunc)`.  Unlike
`getEnums`, the alignment arithmetic runs unconditionally: with zero
matched records `Math.max(...[])` is `-Infinity`, the computed width is
`-Infinity`, and `' '.repeat(-Infinity)` throws `RangeError: Invalid count
value` inside the `close` handler, so the promise never resolves; that
failure is embedded as the `Except.error` case. -/
def getEnumsWithDescription (fileContent : String) (parseFunc : String → Option ParseResult) :
    Except String (String × String) :=
  if primaryPairs fileContent parseFunc = [] then
    Except.error "RangeError: Invalid count value"
  else
    Except.ok (String.intercalate EOL (primaryRendered fileContent parseFunc),
      String.intercalate EOL (descLines fileContent parseFunc))

/-- The banner template literal opening the generated `index.ts`. -/
def indexBanner : String :=
  "\n/**\n * IMPORTANT NOTE!\n * This file is generated automatically\n * Any changes will be overwritten\n */\n"

/-- One re-export statement `export * from './NAME';` plus the line
separator appended for each enum name. -/
def exportLine (enumName : String) : String :=
  "export * from './" ++ enumName ++ "';" ++ EOL

/-- The `fileContent` string built by `Parser.generateIndex` before it is
written to disk: the banner, then one `exportLine` per configured job (in
configuration order), then one per extra enum name (in supplied order).
The `writeFile` call and the log line are external collaborators. -/
def generateIndexContent (parseInfos : List ParseInfo) (extraEnums : List String) : String :=
  extraEnums.foldl (fun acc enumName => acc ++ exportLine enumName)
    (parseInfos.foldl (fun acc info => acc ++ exportLine info.enumName) indexBanner)

/-- Statement helper (not source code): rebuild file content from a first
logical line and a list of (separator, next line) pairs, to quantify over
all line-ending conventions in the line-splitting claims. -/
def joinWith (first : List Char) (rest : List (List Char × List Char)) : List Char :=
  first ++ (rest.map (fun p => p.1 ++ p.2)).flatten

/-- Statement helper (proof layer): the action of `splitChars` on a plain
prefix — prepend it to the first line of the already-split remainder. -/
def consHeadList (fs : List Char) : List (List Char) → List (List Char)
  | [] => [fs]
  | l :: ls => (fs ++ l) :: ls

end Parser

example : Parser.parseName "FOO" = some { name := "FOO", value := "FOO", comment := none } := by
  decide

example : Parser.parseName "foo" = none := by decide

example : Parser.parseName "  FOO;" = some { name := "FOO", value := "FOO", comment := none } := by
  decide

example : Parser.parseNameComment "FOO(\"bar\")" =
    some { name := "FOO", value := "FOO", comment := some "bar" } := by decide

example : Parser.parseNameComment "FOO(\"ba\\\"r\")" =
    some { name := "FOO", value := "FOO", comment := some "ba\\\"r" } := by decide

example : Parser.parseNameValueComment "FOO(1, \"bar\")" =
    some { name := "FOO", value := "FOO", comment := some "bar" } := by decide

example : Parser.parseNameValue "FOO(1, 2)" =
    some { name := "FOO", value := "FOO", comment := none } := by decide

example : Parser.parseNameCommentValue "FOO(\"bar\", 7)" =
    some { name := "FOO", value := "FOO", comment := some "bar" } := by decide

example : Parser.splitByEOL (some "a\r\nb\rc\nd") false = ["a", "b", "c", "d"] := by decide

example : Parser.splitByEOL (some "a\r\nb") false = ["a", "b"] := by decide

example : Parser.splitByEOL (some "a\n\nb") false = ["a", "", "b"] := by decide

example : Parser.splitByEOL (some "") false = [""] := by decide

example : Parser.splitByEOL none true = [] := by decide

example : Parser.getEnums "A\nB" Parser.parseName = "    A = 'A',\n    B = 'B'," := by decide

example : Parser.getEnums "A(\"x\")\nLONGER" Parser.parseNameComment = "    A = 'A',    // x" := by
  decide

example :
    Parser.getEnums "A(\"x\")\nBB" (fun line =>
      (Parser.parseNameComment line).orElse (fun _ => Parser.parseName line)) =
      "    A = 'A',        // x\n    BB = 'BB',      " := by decide

example : Parser.getEnumsWithDescription "A(\"Desc A\")\nB(\"Desc B\")" Parser.parseNameComment =
    Except.ok ("    A = 'A',    // Desc A\n    B = 'B',    // Desc B",
      "    A = 'Desc A',\n    B = 'Desc B',") := by decide

example : Parser.getEnumsWithDescription "FOO" Parser.parseName =
    Except.ok ("    FOO = 'FOO',    // undefined", "    FOO = 'undefined',") := by decide

example : Parser.getEnumsWithDescription "xyz" Parser.parseName =
    Except.error "RangeError: Invalid count value" := by decide

example : Parser.getEnums "xyz" Parser.parseName = "" := by decide

lemma foldl_append_shift (l : List String) :
    ∀ a : String, l.foldl (fun r s => r ++ s) a = a ++ l.foldl (fun r s => r ++ s) "" := by
  induction l with
  | nil => intro a; simp [String.append_empty]
  | cons x xs ih =>
    intro a
    simp only [List.foldl_cons]
    rw [ih (a ++ x), ih ("" ++ x), String.empty_append, String.append_assoc]

lemma join_cons (s : String) (l : List String) : String.join (s :: l) = s ++ String.join l := by
  simp only [String.join, List.foldl_cons]
  rw [foldl_append_shift, String.empty_append]

lemma join_append (l₁ l₂ : List String) :
    String.join (l₁ ++ l₂) = String.join l₁ ++ String.join l₂ := by
  induction l₁ with
  | nil =>
    rw [List.nil_append, show String.join ([] : List String) = "" from rfl, String.empty_append]
  | cons x xs ih => simp only [List.cons_append, join_cons, ih, String.append_assoc]

lemma foldl_export_line {α : Type} (f : α → String) (l : List α) :
    ∀ a : String, l.foldl (fun acc n => acc ++ f n) a = a ++ String.join (l.map f) := by
  induction l with
  | nil =>
    intro a
    rw [List.map_nil, show String.join ([] : List String) = "" from rfl, String.append_empty]
    rfl
  | cons x xs ih =>
    intro a
    simp only [List.foldl_cons, List.map_cons, join_cons]
    rw [ih (a ++ f x), String.append_assoc]

/-- Claim C9: `generateIndex` renders the banner followed by exactly one
re-export line per configured job's enum name in configuration order, then
one per extra enum name in supplied order, and nothing else; instantiated
at jobs `["X","Y"]` with extras `["Z"]`. -/
theorem claim_C9_index_order :
    (∀ (parseInfos : List Parser.ParseInfo) (extraEnums : List String),
        Parser.generateIndexContent parseInfos extraEnums =
          Parser.indexBanner ++
            String.join ((parseInfos.map Parser.ParseInfo.enumName ++ extraEnums).map
              Parser.exportLine))
    ∧ Parser.generateIndexContent
        [{ srcFileName := "x.java", srcDirectory := ".", enumName := "X",
           parseFunc := Parser.parseName },
         { srcFileName := "y.java", srcDirectory := ".", enumName := "Y",
           parseFunc := Parser.parseName }] ["Z"] =
        Parser.indexBanner ++ "export * from './X';" ++ Parser.EOL
          ++ "export * from './Y';" ++ Parser.EOL ++ "export * from './Z';" ++ Parser.EOL := by
  constructor
  · intro parseInfos extraEnums
    show extraEnums.foldl (fun acc enumName => acc ++ Parser.exportLine enumName)
        (parseInfos.foldl (fun acc info => acc ++ Parser.exportLine info.enumName)
          Parser.indexBanner) = _
    rw [foldl_export_line (fun info => Parser.exportLine info.enumName) parseInfos,
      foldl_export_line Parser.exportLine extraEnums, List.map_append, join_append,
      String.append_assoc, List.map_map]
    rfl
  · set_option maxRecDepth 8192 in decide

/-- Claim C5 counterexample: with `ignoreEmptyLines = false`, empty (and
null) content does not yield an empty sequence — `''.split` yields one
empty line, which the flag-off path keeps. -/
theorem claim_C5_counterexample :
    Parser.splitByEOL (some "") false = [""] ∧ Parser.splitByEOL none false = [""]
    ∧ Parser.splitByEOL (some "") false ≠ [] := by decide

/-- Claim C5 (amended): `splitByEOL` is total; for empty or null content it
yields the empty sequence when `ignoreEmptyLines` is true, and the
one-element sequence containing the empty string when it is false. -/
theorem claim_C5_total_on_empty :
    Parser.splitByEOL none true = [] ∧ Parser.splitByEOL (some "") true = []
    ∧ Parser.splitByEOL none false = [""] ∧ Parser.splitByEOL (some "") false = [""] := by
  decide

/-- Claim C3: in description mode, input lines `A("Desc A")` and
`B("Desc B")` matched by `parseNameComment` yield the primary body with
`A = 'A'` and `B = 'B'` and the description body with `A = 'Desc A'` and
`B = 'Desc B'`, in input order. -/
theorem claim_C3_description_pairing :
    Parser.getEnumsWithDescription "A(\"Desc A\")\nB(\"Desc B\")" Parser.parseNameComment =
      Except.ok ("    A = 'A',    // Desc A" ++ Parser.EOL ++ "    B = 'B',    // Desc B",
        "    A = 'Desc A'," ++ Parser.EOL ++ "    B = 'Desc B',") := by decide

/-- Claim C6: `parseNameComment` on `FOO("bar")` extracts name, value and
comment; an escaped quote (`ba\"r`) does not terminate the comment and is
kept unmodified; the closing quote must match the opening quote character
(a single-quote close cannot end a double-quoted comment, while a matching
single-quoted comment parses). -/
theorem claim_C6_quoted_comment :
    Parser.parseNameComment "FOO(\"bar\")" =
        some { name := "FOO", value := "FOO", comment := some "bar" }
    ∧ Parser.parseNameComment "FOO(\"ba\\\"r\")" =
        some { name := "FOO", value := "FOO", comment := some "ba\\\"r" }
    ∧ Parser.parseNameComment "FOO(\"bar')" = none
    ∧ Parser.parseNameComment "FOO('bar')" =
        some { name := "FOO", value := "FOO", comment := some "bar" } := by decide

/-- Claim C7: `parseNameValueComment` on `FOO(1, "bar")` returns name
`FOO`, value `FOO`, comment `bar`; and in every built-in strategy the
returned `value` equals the returned `name` (the raw positional value
captured from the argument list is never exposed). -/
theorem claim_C7_value_equals_name :
    Parser.parseNameValueComment "FOO(1, \"bar\")" =
        some { name := "FOO", value := "FOO", comment := some "bar" }
    ∧ (∀ line r, Parser.parseName line = some r → r.value = r.name)
    ∧ (∀ line r, Parser.parseNameValue line = some r → r.value = r.name)
    ∧ (∀ line r, Parser.parseNameComment line = some r → r.value = r.name)
    ∧ (∀ line r, Parser.parseNameValueComment line = some r → r.value = r.name)
    ∧ (∀ line r, Parser.parseNameCommentValue line = some r → r.value = r.name) := by
  refine ⟨by decide, ?_, ?_, ?_, ?_, ?_⟩ <;>
  · intro line r h
    simp only [Parser.parseName, Parser.parseNameValue, Parser.parseNameComment,
      Parser.parseNameValueComment, Parser.parseNameCommentValue,
      Option.map_eq_some'] at h
    obtain ⟨a, -, rfl⟩ := h
    rfl

/-- Claim C2: when no line of the content matches the active strategy,
`getEnums` returns the empty body, but `getEnumsWithDescription` runs its
alignment arithmetic on zero records and fails with the `RangeError`
raised by `' '.repeat(-Infinity)` instead of returning a pair of empty
bodies. -/
theorem claim_C2_zero_match (content : String) (f : String → Option Parser.ParseResult)
    (h : ∀ line ∈ Parser.splitByEOL (some content) true, f line = none) :
    Parser.getEnums content f = ""
    ∧ Parser.getEnumsWithDescription content f =
        Except.error "RangeError: Invalid count value" := by
  have hnil : (Parser.splitByEOL (some content) true).filterMap f = [] :=
    List.filterMap_eq_nil_iff.mpr h
  constructor
  · unfold Parser.getEnums Parser.enumLines
    rw [hnil]
    simp [String.intercalate]
  · unfold Parser.getEnumsWithDescription Parser.primaryPairs Parser.matchedResults
    rw [hnil]
    simp

/-- Claim C2 witness: concrete zero-match content (every line is lowercase,
so `parseName` rejects it). -/
theorem claim_C2_witness :
    Parser.getEnums "xyz" Parser.parseName = ""
    ∧ Parser.getEnumsWithDescription "xyz" Parser.parseName =
        Except.error "RangeError: Invalid count value" :=
  claim_C2_zero_match "xyz" Parser.parseName (by decide)

lemma space_not_ident (c : Char) (h : Parser.isJsSpace c = true) :
    Parser.isIdentChar c = false := by
  simp only [Parser.isJsSpace, decide_eq_true_eq] at h
  rcases h with rfl | rfl | rfl | rfl | rfl | rfl | rfl | rfl | rfl | rfl | rfl | rfl | rfl |
    rfl | rfl | rfl | rfl | rfl | rfl | rfl | rfl | rfl | rfl | rfl | rfl <;> decide

lemma ident_not_space (c : Char) (h : Parser.isIdentChar c = true) :
    Parser.isJsSpace c = false := by
  cases hs : Parser.isJsSpace c
  · rfl
  · rw [space_not_ident c hs] at h
    cases h

lemma span_append (p : Char → Bool) :
    ∀ (l₁ l₂ : List Char), (∀ c ∈ l₁, p c = true) → l₂.takeWhile p = [] →
      (l₁ ++ l₂).takeWhile p = l₁ ∧ (l₁ ++ l₂).dropWhile p = l₂ := by
  intro l₁
  induction l₁ with
  | nil =>
    intro l₂ _ h2
    refine ⟨by simpa using h2, ?_⟩
    cases l₂ with
    | nil => rfl
    | cons c r =>
      rw [List.takeWhile_cons] at h2
      rw [List.nil_append, List.dropWhile_cons]
      cases hpc : p c
      · simp
      · rw [hpc] at h2
        simp at h2
  | cons c cs ih =>
    intro l₂ h1 h2
    have hc : p c = true := h1 c (List.mem_cons_self c cs)
    have ih2 := ih l₂ (fun x hx => h1 x (List.mem_cons_of_mem c hx)) h2
    constructor
    · rw [List.cons_append, List.takeWhile_cons, hc, if_pos rfl, ih2.1]
    · rw [List.cons_append, List.dropWhile_cons, hc, if_pos rfl, ih2.2]

/-- Claim C8: `parseName` accepts `FOO` (identifier mapped to both name and
value), rejects lowercase `foo`, and in general maps any line made of
optional leading whitespace, a non-empty `[A-Z0-9_]` identifier and an
optional trailing `;` or `,` to a result carrying the identifier as both
name and value. -/
theorem claim_C8_name_only :
    Parser.parseName "FOO" = some { name := "FOO", value := "FOO", comment := none }
    ∧ Parser.parseName "foo" = none
    ∧ ∀ (ws id tl : List Char), id ≠ [] →
        (∀ c ∈ ws, Parser.isJsSpace c = true) →
        (∀ c ∈ id, Parser.isIdentChar c = true) →
        (tl = [] ∨ tl = [';'] ∨ tl = [',']) →
        Parser.parseName (String.mk (ws ++ id ++ tl)) =
          some { name := String.mk id, value := String.mk id, comment := none } := by
  refine ⟨by decide, by decide, ?_⟩
  intro ws id tl hid hws hident htl
  simp only [Parser.parseName, Parser.matchName]
  have htake_sp : (id ++ tl).takeWhile Parser.isJsSpace = [] := by
    cases id with
    | nil => exact absurd rfl hid
    | cons c cs =>
      rw [List.cons_append, List.takeWhile_cons,
        ident_not_space c (hident c (List.mem_cons_self c cs))]
      simp
  have hdrop : (ws ++ id ++ tl).dropWhile Parser.isJsSpace = id ++ tl := by
    rw [List.append_assoc]
    exact (span_append Parser.isJsSpace ws (id ++ tl) hws htake_sp).2
  rw [hdrop]
  have htl_take : tl.takeWhile Parser.isIdentChar = [] := by
    rcases htl with rfl | rfl | rfl <;> decide
  have hspan := span_append Parser.isIdentChar id tl hident htl_take
  rw [hspan.1, hspan.2, if_pos ⟨hid, htl⟩]
  rfl

/-- Claim C8 witness: `parseName` on two spaces, `FOO` and a trailing
semicolon. -/
theorem claim_C8_witness :
    Parser.parseName (String.mk ([' ', ' '] ++ ['F', 'O', 'O'] ++ [';'])) =
      some { name := String.mk ['F', 'O', 'O'], value := String.mk ['F', 'O', 'O'],
             comment := none } :=
  claim_C8_name_only.2.2 [' ', ' '] ['F', 'O', 'O'] [';'] (by decide) (by decide) (by decide)
    (by decide)

lemma le_foldl_max_init (lines : List (String × Option String)) :
    ∀ a : Nat, a ≤ lines.foldl (fun m v => max m v.1.length) a := by
  induction lines with
  | nil => intro a; exact le_refl a
  | cons x xs ih =>
    intro a
    exact le_trans (le_max_left a x.1.length) (ih (max a x.1.length))

lemma mem_le_foldl_max :
    ∀ (lines : List (String × Option String)) (v : String × Option String) (a : Nat),
      v ∈ lines → v.1.length ≤ lines.foldl (fun m w => max m w.1.length) a := by
  intro lines
  induction lines with
  | nil => intro v a hv; cases hv
  | cons x xs ih =>
    intro v a hv
    rcases List.mem_cons.mp hv with rfl | hmem
    · exact le_trans (le_max_right a v.1.length) (le_foldl_max_init xs (max a v.1.length))
    · exact ih v (max a x.1.length) hmem

lemma alignColumn_ge (m : Nat) : m + 4 ≤ Parser.alignColumn m := by
  unfold Parser.alignColumn
  omega

lemma padCrop_spec (col : Nat) (s : String) (h : s.length ≤ col) :
    Parser.padCrop col s = s ++ String.mk (List.replicate (col - s.length) ' ')
    ∧ (Parser.padCrop col s).length = col := by
  constructor
  · show String.mk ((s.data ++ List.replicate col ' ').take col) = _
    rw [List.take_append_eq_append_take, List.take_of_length_le h, List.take_replicate,
      min_eq_left (Nat.sub_le col s.data.length)]
    cases s
    rfl
  · show (String.mk ((s.data ++ List.replicate col ' ').take col)).length = col
    rw [String.length_mk, List.length_take, List.length_append, List.length_replicate]
    have hd : s.data.length = s.length := rfl
    omega

lemma alignColumn_eq_ceil (m : Nat) :
    (Parser.alignColumn m : ℤ) = ⌈((m : ℚ)) / 4 + 1⌉ * 4 := by
  have hub : 4 * ((m + 3) / 4) ≤ m + 3 := by omega
  have hlb : m ≤ 4 * ((m + 3) / 4) := by omega
  have hceil : ⌈((m : ℚ)) / 4⌉ = (((m + 3) / 4 : ℕ) : ℤ) := by
    rw [Int.ceil_eq_iff]
    constructor
    · rw [lt_div_iff₀ (by norm_num : (0 : ℚ) < 4), sub_mul, one_mul, sub_lt_iff_lt_add]
      have hq4 : (m + 3) / 4 * 4 < m + 4 := by omega
      exact_mod_cast hq4
    · rw [div_le_iff₀ (by norm_num : (0 : ℚ) < 4)]
      have hq5 : m ≤ (m + 3) / 4 * 4 := by omega
      exact_mod_cast hq5
  rw [Int.ceil_add_one, hceil]
  unfold Parser.alignColumn
  push_cast
  ring

/-- Claim C1: in simple mode, when at least one matched record carries a
truthy comment, `getEnums` pads every member line with trailing spaces to
the common column `ceil(maxLineLength / 4 + 1) * 4`, appends `// comment`
there for commented records and only the padding for uncommented ones, and
every line is exactly the column wide up to the comment marker; with no
comment present the member lines are joined without padding or comment
markup. -/
theorem claim_C1_simple_mode_alignment (content : String)
    (f : String → Option Parser.ParseResult) :
    ((Parser.enumLines content f).any (fun v => Parser.truthyComment v.2) = true →
      Parser.getEnums content f =
        String.intercalate Parser.EOL ((Parser.enumLines content f).map
          (Parser.renderLine (Parser.alignColumn
            (Parser.maxLineLen (Parser.enumLines content f)))))
      ∧ (Parser.alignColumn (Parser.maxLineLen (Parser.enumLines content f)) : ℤ) =
          ⌈((Parser.maxLineLen (Parser.enumLines content f) : ℚ)) / 4 + 1⌉ * 4
      ∧ ∀ v ∈ Parser.enumLines content f,
          Parser.renderLine (Parser.alignColumn (Parser.maxLineLen
              (Parser.enumLines content f))) v
            = v.1 ++ String.mk (List.replicate
                  (Parser.alignColumn (Parser.maxLineLen (Parser.enumLines content f)) -
                    v.1.length) ' ')
              ++ (if Parser.truthyComment v.2 then "// " ++ Parser.jsTemplate v.2 else "")
          ∧ (Parser.padCrop (Parser.alignColumn (Parser.maxLineLen
              (Parser.enumLines content f))) v.1).length =
                Parser.alignColumn (Parser.maxLineLen (Parser.enumLines content f)))
    ∧ ((Parser.enumLines content f).any (fun v => Parser.truthyComment v.2) = false →
      Parser.getEnums content f =
        String.intercalate Parser.EOL ((Parser.enumLines content f).map (fun v => v.1))) := by
  constructor
  · intro h
    refine ⟨?_, alignColumn_eq_ceil _, ?_⟩
    · unfold Parser.getEnums
      rw [if_pos h]
    · intro v hv
      have hle : v.1.length ≤
          Parser.alignColumn (Parser.maxLineLen (Parser.enumLines content f)) := by
        have h1 := mem_le_foldl_max (Parser.enumLines content f) v 0 hv
        have h2 := alignColumn_ge (Parser.maxLineLen (Parser.enumLines content f))
        unfold Parser.maxLineLen at h2 ⊢
        omega
      have hpad := padCrop_spec _ v.1 hle
      exact ⟨by unfold Parser.renderLine; rw [hpad.1], hpad.2⟩
  · intro h
    unfold Parser.getEnums
    rw [if_neg (by simp [h])]

/-- Claim C1 witness: the aligned branch instantiated on the single line
`A("x")` matched by `parseNameComment`. -/
theorem claim_C1_witness :
    Parser.getEnums "A(\"x\")" Parser.parseNameComment =
      String.intercalate Parser.EOL ((Parser.enumLines "A(\"x\")" Parser.parseNameComment).map
        (Parser.renderLine (Parser.alignColumn (Parser.maxLineLen
          (Parser.enumLines "A(\"x\")" Parser.parseNameComment))))) :=
  ((claim_C1_simple_mode_alignment "A(\"x\")" Parser.parseNameComment).1 (by decide)).1

/-- Claim C10: in description mode, a matched record with no comment field
is not skipped and raises no error: its description-enum line interpolates
the missing comment as the literal text `undefined`, and its primary-enum
line's trailing comment renders as `// undefined`. -/
theorem claim_C10_undefined_description (content : String)
    (f : String → Option Parser.ParseResult) (i : ℕ)
    (hm : i < (Parser.matchedResults content f).length)
    (hd : i < (Parser.descLines content f).length)
    (hc : ((Parser.matchedResults content f).get ⟨i, hm⟩).comment = none) :
    (Parser.descLines content f).get ⟨i, hd⟩ =
        "    " ++ ((Parser.matchedResults content f).get ⟨i, hm⟩).value ++ " = 'undefined',"
    ∧ (∃ pad, ∃ hp : i < (Parser.primaryRendered content f).length,
        (Parser.primaryRendered content f).get ⟨i, hp⟩ = pad ++ "// undefined")
    ∧ Parser.getEnumsWithDescription content f =
        Except.ok (String.intercalate Parser.EOL (Parser.primaryRendered content f),
          String.intercalate Parser.EOL (Parser.descLines content f)) := by
  simp only [List.get_eq_getElem] at hc ⊢
  have hc' : (Parser.matchedResults content f)[i].comment = none := hc
  refine ⟨?_, ?_, ?_⟩
  · unfold Parser.descLines
    rw [List.getElem_map, hc', show Parser.jsTemplate none = "undefined" from rfl,
      String.append_assoc, String.append_assoc]
    congr 1
  · have hp : i < (Parser.primaryRendered content f).length := by
      unfold Parser.primaryRendered Parser.primaryPairs
      simpa using hm
    refine ⟨Parser.padCrop (Parser.alignColumn (Parser.maxLineLen
      (Parser.primaryPairs content f)))
      ("    " ++ (Parser.matchedResults content f)[i].value ++ " = '" ++
        (Parser.matchedResults content f)[i].value ++ "',"), hp, ?_⟩
    unfold Parser.primaryRendered Parser.primaryPairs
    rw [List.getElem_map, List.getElem_map, hc',
      show Parser.jsTemplate none = "undefined" from rfl, String.append_assoc]
    congr 1
  · have hne : Parser.primaryPairs content f ≠ [] := by
      have hlen : i < (Parser.primaryPairs content f).length := by
        unfold Parser.primaryPairs
        simpa using hm
      exact List.ne_nil_of_length_pos (by omega)
    unfold Parser.getEnumsWithDescription
    rw [if_neg hne]

/-- Claim C10 witness: the single comment-less record matched by
`parseName` on the content `FOO` renders the description line
`FOO = 'undefined'`. -/
theorem claim_C10_witness :
    (Parser.descLines "FOO" Parser.parseName).get ⟨0, by decide⟩ = "    FOO = 'undefined'," :=
  (claim_C10_undefined_description "FOO" Parser.parseName 0 (by decide) (by decide)
    (by decide)).1

lemma consHead_ne_nil (c : Char) (ll : List (List Char)) : Parser.consHead c ll ≠ [] := by
  cases ll <;> simp [Parser.consHead]

lemma splitChars_ne_nil (l : List Char) : Parser.splitChars l ≠ [] := by
  rw [Parser.splitChars.eq_def]
  split <;> simp [consHead_ne_nil]

lemma splitChars_plain (c : Char) (rest : List Char) (h1 : c ≠ '\r') (h2 : c ≠ '\n') :
    Parser.splitChars (c :: rest) = Parser.consHead c (Parser.splitChars rest) := by
  rw [Parser.splitChars.eq_def]
  split <;> simp_all

lemma splitChars_cr (c : Char) (rest : List Char) (h : c ≠ '\n') :
    Parser.splitChars ('\r' :: c :: rest) = [] :: Parser.splitChars (c :: rest) := by
  rw [Parser.splitChars.eq_def]
  split <;> first
  | (simp_all; done)
  | (rename_i hr hn heq
     injection heq with h1 h2
     exact absurd h1.symm hr)

lemma splitChars_append_plain :
    ∀ (fs cs : List Char), (∀ c ∈ fs, c ≠ '\r' ∧ c ≠ '\n') →
      Parser.splitChars (fs ++ cs) = Parser.consHeadList fs (Parser.splitChars cs) := by
  intro fs
  induction fs with
  | nil =>
    intro cs _
    rw [List.nil_append]
    cases hll : Parser.splitChars cs with
    | nil => exact absurd hll (splitChars_ne_nil cs)
    | cons h t => simp [Parser.consHeadList]
  | cons c fs' ih =>
    intro cs hplain
    have hc := hplain c (List.mem_cons_self c fs')
    rw [List.cons_append, splitChars_plain c (fs' ++ cs) hc.1 hc.2,
      ih cs (fun x hx => hplain x (List.mem_cons_of_mem c hx))]
    cases Parser.splitChars cs <;> simp [Parser.consHead, Parser.consHeadList]

lemma splitChars_sep (sep cs : List Char)
    (hsep : sep = ['\r', '\n'] ∨ sep = ['\r'] ∨ sep = ['\n'])
    (hlf : sep = ['\r'] → cs.head? ≠ some '\n') :
    Parser.splitChars (sep ++ cs) = [] :: Parser.splitChars cs := by
  rcases hsep with rfl | rfl | rfl
  · rfl
  · cases cs with
    | nil => rfl
    | cons c r =>
      have hc : c ≠ '\n' := by
        intro hcontra
        exact hlf rfl (by rw [hcontra]; rfl)
      exact splitChars_cr c r hc
  · rfl

lemma splitChars_joinWith :
    ∀ (rest : List (List Char × List Char)) (first : List Char),
      (∀ c ∈ first, c ≠ '\r' ∧ c ≠ '\n') →
      (∀ p ∈ rest, (p.1 = ['\r', '\n'] ∨ p.1 = ['\r'] ∨ p.1 = ['\n']) ∧
        ∀ c ∈ p.2, c ≠ '\r' ∧ c ≠ '\n') →
      List.Chain' (fun p q => ¬(p.1 = ['\r'] ∧ p.2 = [] ∧ q.1 = ['\n'])) rest →
      Parser.splitChars (Parser.joinWith first rest) = first :: rest.map (fun p => p.2) := by
  intro rest
  induction rest with
  | nil =>
    intro first hfirst _ _
    have hjoin : Parser.joinWith first [] = first ++ [] := by simp [Parser.joinWith]
    rw [hjoin, splitChars_append_plain first [] hfirst]
    simp [Parser.consHeadList, Parser.splitChars]
  | cons p rest' ih =>
    intro first hfirst hall hchain
    obtain ⟨sep, l⟩ := p
    have hsep : sep = ['\r', '\n'] ∨ sep = ['\r'] ∨ sep = ['\n'] :=
      (hall (sep, l) (List.mem_cons_self _ _)).1
    have hl : ∀ c ∈ l, c ≠ '\r' ∧ c ≠ '\n' := (hall (sep, l) (List.mem_cons_self _ _)).2
    have hall' : ∀ p ∈ rest', (p.1 = ['\r', '\n'] ∨ p.1 = ['\r'] ∨ p.1 = ['\n']) ∧
        ∀ c ∈ p.2, c ≠ '\r' ∧ c ≠ '\n' :=
      fun q hq => hall q (List.mem_cons_of_mem _ hq)
    have hchain2 := List.chain'_cons'.mp hchain
    have hlf : sep = ['\r'] → (Parser.joinWith l rest').head? ≠ some '\n' := by
      intro hsepr
      cases l with
      | cons c l' =>
        have hcn : c ≠ '\n' := (hl c (List.mem_cons_self c l')).2
        simp [Parser.joinWith, hcn]
      | nil =>
        cases rest' with
        | nil => simp [Parser.joinWith]
        | cons q r2 =>
          obtain ⟨sep2, l2⟩ := q
          have hsep2 : sep2 = ['\r', '\n'] ∨ sep2 = ['\r'] ∨ sep2 = ['\n'] :=
            (hall' (sep2, l2) (List.mem_cons_self _ _)).1
          have hnothaz := hchain2.1 (sep2, l2) (by simp)
          have hne2 : sep2 ≠ ['\n'] := fun hcontra => hnothaz ⟨hsepr, rfl, hcontra⟩
          rcases hsep2 with rfl | rfl | rfl
          · simp [Parser.joinWith]
          · simp [Parser.joinWith]
          · exact absurd rfl hne2
    have hjoin : Parser.joinWith first ((sep, l) :: rest') =
        first ++ (sep ++ Parser.joinWith l rest') := by
      simp [Parser.joinWith, List.append_assoc]
    rw [hjoin, splitChars_append_plain first _ hfirst,
      splitChars_sep sep _ hsep hlf, ih l hl hall' hchain2.2]
    simp [Parser.consHeadList]

/-- Claim C4 counterexample: the logical lines `a`, empty, `b` encoded with
a `\r` ending followed by a `\n` ending split as `["a","b"]` — the lone
`\r` and the following lone `\n` are consumed as one `\r\n` break — while
the same logical lines encoded with `\n` endings split as `["a","","b"]`,
so mixed endings do not always produce the same logical line sequence with
`ignoreEmptyLines = false`. -/
theorem claim_C4_counterexample :
    Parser.splitByEOL (some (String.mk (Parser.joinWith ['a'] [(['\r'], []), (['\n'], ['b'])])))
        false = ["a", "b"]
    ∧ Parser.splitByEOL (some (String.mk (Parser.joinWith ['a'] [(['\n'], []), (['\n'], ['b'])])))
        false = ["a", "", "b"]
    ∧ (["a", "b"] : List String) ≠ ["a", "", "b"] := by decide

/-- Claim C4 (amended): `splitByEOL` recovers the same logical line
sequence from content using `\n`, `\r` or `\r\n` endings, consistently or
mixed, provided no lone `\r` break is immediately followed (across an
empty logical line) by a lone `\n` break — in that excluded case the pair
is consumed as a single `\r\n` break and the empty line between them is
lost.  With `ignoreEmptyLines = false` all lines are preserved in their
original positions; with `ignoreEmptyLines = true` exactly the empty
strings are dropped (whitespace-only lines are retained), and no element
of any `ignoreEmptyLines = true` result is the empty string. -/
theorem claim_C4_split_invariance (first : List Char) (rest : List (List Char × List Char))
    (hfirst : ∀ c ∈ first, c ≠ '\r' ∧ c ≠ '\n')
    (hrest : ∀ p ∈ rest, (p.1 = ['\r', '\n'] ∨ p.1 = ['\r'] ∨ p.1 = ['\n']) ∧
      ∀ c ∈ p.2, c ≠ '\r' ∧ c ≠ '\n')
    (hchain : List.Chain' (fun p q => ¬(p.1 = ['\r'] ∧ p.2 = [] ∧ q.1 = ['\n'])) rest) :
    Parser.splitByEOL (some (String.mk (Parser.joinWith first rest))) false =
        (first :: rest.map (fun p => p.2)).map String.mk
    ∧ Parser.splitByEOL (some (String.mk (Parser.joinWith first rest))) true =
        ((first :: rest.map (fun p => p.2)).map String.mk).filter (fun line => line != "")
    ∧ ∀ (content : Option String) (s : String),
        s ∈ Parser.splitByEOL content true → s ≠ "" := by
  have hcore := splitChars_joinWith rest first hfirst hrest hchain
  refine ⟨?_, ?_, ?_⟩
  · show (Parser.splitChars (Parser.joinWith first rest)).map String.mk = _
    rw [hcore]
  · show ((Parser.splitChars (Parser.joinWith first rest)).map String.mk).filter
        (fun line => line != "") = _
    rw [hcore]
  · intro content s hs
    have hmem : s ∈ ((Parser.splitChars (content.getD "").data).map String.mk).filter
        (fun line => line != "") := hs
    have h2 := (List.mem_filter.mp hmem).2
    simpa using h2

/-- Claim C4 witness: the lines `a`, empty, `bc` encoded with a `\r\n`
ending and then a `\r` ending are recovered exactly. -/
theorem claim_C4_witness :
    Parser.splitByEOL (some (String.mk (Parser.joinWith ['a']
        [(['\r', '\n'], []), (['\r'], ['b', 'c'])]))) false =
      (['a'] :: ([(['\r', '\n'], ([] : List Char)), (['\r'], ['b', 'c'])].map
        (fun p => p.2))).map String.mk :=
  (claim_C4_split_invariance ['a'] [(['\r', '\n'], []), (['\r'], ['b', 'c'])] (by decide)
    (by decide) (by simp [List.chain'_cons])).1

/-- Claim C7 witness: the value-equals-name property applied to the
concrete match of `parseName` on `FOO`. -/
theorem claim_C7_witness :
    ({ name := "FOO", value := "FOO", comment := none } : Parser.ParseResult).value =
      ({ name := "FOO", value := "FOO", comment := none } : Parser.ParseResult).name :=
  claim_C7_value_equals_name.2.1 "FOO" { name := "FOO", value := "FOO", comment := none }
    (by decide)
